import Mathlib

/-!
Verification of the crasher-bot decision/recovery engine.

A shallow embedding of the decision engine of `crasher_bot.py`:
the multi-strategy arbitration state machine (trigger evaluation,
exclusive-slot bet sizing, stop conditions), the session-partitioned
multiplier log, and the session-continuity resolver with timestamp
backfilling.  Monetary amounts, multipliers and timestamps are modelled
as rationals; the SQLite tables are modelled as Lean lists in insertion
(rowid) order.
-/

namespace Crasher

/-- Per-strategy configuration and runtime state, mirroring the
`StrategyState` dataclass of `crasher_bot.py`. -/
structure StrategyState where
  name : String
  base_bet : ℚ
  auto_cashout : ℚ
  trigger_threshold : ℚ
  trigger_count : ℕ
  max_consecutive_losses : ℕ
  bet_multiplier : ℚ
  current_bet : ℚ
  consecutive_losses : ℕ
  total_profit : ℚ
  waiting_for_result : Bool
deriving Repr, DecidableEq

/-- Model of `StrategyState.reset`: reset strategy state after a win. -/
def StrategyState.reset (s : StrategyState) : StrategyState :=
  { s with current_bet := s.base_bet
           consecutive_losses := 0
           waiting_for_result := false }

/-- Model of `StrategyState.calc_next_bet`: next bet using the custom multiplier. -/
def StrategyState.calc_next_bet (s : StrategyState) : ℚ :=
  if s.consecutive_losses = 0 then s.base_bet
  else s.base_bet * s.bet_multiplier ^ s.consecutive_losses

/-- Model of `MultiStrategyCrasherBot.handle_result`: settle the pending bet of a
strategy against the round multiplier.  Returns the updated strategy and
the delta to the global cumulative profit. -/
def handle_result (s : StrategyState) (multiplier : ℚ) : StrategyState × ℚ :=
  if s.auto_cashout ≤ multiplier then
    let profit := s.current_bet * (s.auto_cashout - 1)
    (StrategyState.reset { s with total_profit := s.total_profit + profit }, profit)
  else
    let loss := s.current_bet
    let s1 : StrategyState :=
      { s with total_profit := s.total_profit - loss
               consecutive_losses := s.consecutive_losses + 1
               waiting_for_result := false }
    ({ s1 with current_bet := s1.calc_next_bet }, -loss)

/-- The last `n` elements of a list, in order.  Models
`SELECT ... ORDER BY id DESC LIMIT n` followed by a reversal back to
chronological order. -/
def lastN {α : Type} (l : List α) (n : ℕ) : List α :=
  l.drop (l.length - n)

/-- Model of `Database.get_recent_multipliers`: the most recent `count`
multipliers of the current session, oldest to newest (fewer when the
session history is shorter). -/
def get_recent_multipliers (history : List ℚ) (count : ℕ) : List ℚ :=
  lastN history count

/-- Model of `MultiStrategyCrasherBot.check_trigger`: the trigger fires only when
the recent window has exactly `trigger_count` elements, all strictly
below `trigger_threshold`. -/
def check_trigger (history : List ℚ) (s : StrategyState) : Bool :=
  let recent := get_recent_multipliers history s.trigger_count
  if recent.length ≠ s.trigger_count then false
  else recent.all fun m => decide (m < s.trigger_threshold)

/-- One accepted outcome event of the main loop: the round multiplier,
plus the environment's answers to `setup_auto_cashout` and `place_bet`
for each strategy index (missing entries default to success). -/
structure OutcomeEvent where
  value : ℚ
  setup_ok : List Bool
  place_ok : List Bool
deriving Repr, DecidableEq

/-- Successful activation: the bet amount is recomputed via
`calc_next_bet`, stored as `current_bet`, and the strategy starts
waiting for its result (run loop lines 1267-1272). -/
def activate_strategy (s : StrategyState) : StrategyState :=
  { s with current_bet := s.calc_next_bet
           waiting_for_result := true }

/-- The activation scan of the run loop (lines 1253-1273): iterate
strategies in declared order; for each non-waiting strategy whose
trigger fires, skip it if auto-cashout setup fails, otherwise attempt
the bet; the first successful placement activates that strategy and
stops the scan. -/
def scan_activate (history : List ℚ) :
    List StrategyState → List Bool → List Bool → Option (ℕ × StrategyState)
  | [], _, _ => none
  | s :: rest, su, pl =>
    if !s.waiting_for_result && check_trigger history s then
      if su.headD true then
        if pl.headD true then some (0, activate_strategy s)
        else (scan_activate history rest su.tail pl.tail).map fun p => (p.1 + 1, p.2)
      else (scan_activate history rest su.tail pl.tail).map fun p => (p.1 + 1, p.2)
    else (scan_activate history rest su.tail pl.tail).map fun p => (p.1 + 1, p.2)

/-- The engine's mutable state: the ordered strategy collection, the
identity of the strategy holding the exclusive slot
(`active_strategy_name`, here an index), the global cumulative profit,
the `max_loss` stop threshold and the current session's multiplier
history. -/
structure BotState where
  strategies : List StrategyState
  active_strategy : Option ℕ
  total_profit : ℚ
  max_loss : ℚ
  history : List ℚ
deriving Repr, DecidableEq

/-- Resolution phase of the run loop (lines 1244-1251): if a strategy
holds the slot and is waiting, settle its bet and, when it is no longer
waiting, clear the active strategy. -/
def resolve_pending (st : BotState) (multiplier : ℚ) : BotState :=
  match st.active_strategy with
  | none => st
  | some i =>
    match st.strategies[i]? with
    | none => st
    | some s =>
      if s.waiting_for_result then
        let p := handle_result s multiplier
        { st with strategies := st.strategies.set i p.1
                  total_profit := st.total_profit + p.2
                  active_strategy := if p.1.waiting_for_result then some i else none }
      else st

/-- Activation phase of the run loop (lines 1253-1273): only when no
strategy holds the slot, scan for the first strategy that triggers and
places a bet successfully. -/
def try_activate (st : BotState) (ev : OutcomeEvent) : BotState :=
  match st.active_strategy with
  | some _ => st
  | none =>
    match scan_activate st.history st.strategies ev.setup_ok ev.place_ok with
    | none => st
    | some (i, s') =>
      { st with strategies := st.strategies.set i s'
                active_strategy := some i }

/-- Processing of one accepted outcome event (run loop lines
1242-1273): append the multiplier to the session log, resolve any
pending bet, then possibly activate one strategy. -/
def step (st : BotState) (ev : OutcomeEvent) : BotState :=
  try_activate
    (resolve_pending { st with history := st.history ++ [ev.value] } ev.value)
    ev

/-- Model of `MultiStrategyCrasherBot.check_stop_conditions`: `true` means keep
running; `false` once the global loss cap is hit or some strategy
reached its consecutive-loss cap. -/
def check_stop_conditions (st : BotState) : Bool :=
  if st.total_profit ≤ -st.max_loss then false
  else if st.strategies.any fun s =>
      decide (s.max_consecutive_losses ≤ s.consecutive_losses) then false
  else true

/-- The main loop (lines 1189-1275) over a list of accepted outcome
events: the stop conditions are checked at the top of each iteration
and a failed check breaks out of the loop, discarding all later events.
Returns the list of engine states after each processed event. -/
def runEvents (st : BotState) : List OutcomeEvent → List BotState
  | [] => []
  | ev :: rest =>
    if check_stop_conditions st then
      step st ev :: runEvents (step st ev) rest
    else []

/-- The full trace of engine states: initial state followed by the
state after each processed event. -/
def traceOf (st : BotState) (evs : List OutcomeEvent) : List BotState :=
  st :: runEvents st evs

/-! ## The multiplier log and session tables -/

/-- One row of the `multipliers` table.  The schema
(`Database._init_tables`) declares `id` autoincrement (modelled by list
position), `multiplier REAL NOT NULL`, `bettor_count INTEGER`,
`timestamp DATETIME` and `session_id`; it declares **no** uniqueness
constraint of any kind. -/
structure MultRow where
  multiplier : ℚ
  bettor_count : Option ℕ
  timestamp : ℚ
  session_id : ℕ
deriving Repr, DecidableEq

/-- A plain SQL `INSERT` into `multipliers`: with no uniqueness
constraint in the schema, it always appends a fresh row. -/
def insertRow (table : List MultRow) (r : MultRow) : List MultRow :=
  table ++ [r]

/-- Model of `Database.add_multiplier`: insert the multiplier into the current
session.  The row's timestamp comes from the column default
(`CURRENT_TIMESTAMP`), passed here explicitly. -/
def add_multiplier (table : List MultRow) (sid : ℕ) (m : ℚ) (bc : Option ℕ)
    (ts : ℚ) : List MultRow :=
  insertRow table { multiplier := m, bettor_count := bc, timestamp := ts, session_id := sid }

/-- Number of stored rows of a session carrying a given
`(timestamp, value)` pair. -/
def countEvent (table : List MultRow) (sid : ℕ) (ts m : ℚ) : ℕ :=
  (table.filter fun r =>
    decide (r.session_id = sid ∧ r.timestamp = ts ∧ r.multiplier = m)).length

/-- The rows of one session, in insertion (id) order:
`WHERE session_id = ?` keeping table order. -/
def sessionRows (table : List MultRow) (sid : ℕ) : List MultRow :=
  table.filter fun r => decide (r.session_id = sid)

/-- Aggregate `MAX(timestamp)` over a set of rows; `none` on the empty set, as
SQL aggregates return `NULL` there. -/
def maxTimestamp : List MultRow → Option ℚ
  | [] => none
  | r :: rest =>
    match maxTimestamp rest with
    | none => some r.timestamp
    | some t => some (max r.timestamp t)

/-- The persisted database: the `multipliers` table plus the number of
rows of the `sessions` table (session ids are `1 .. session_count`, the
last created session having the largest id). -/
structure Db where
  table : List MultRow
  session_count : ℕ
deriving Repr, DecidableEq

/-- Model of `SessionManager.get_last_session`: the last session joined with the
maximum timestamp and count of its multipliers.  The source returns
`result if result and result[1] else None`, so a session whose
`MAX(timestamp)` is `NULL` (zero rounds) yields `None`. -/
def get_last_session (db : Db) : Option (ℕ × ℚ × ℕ) :=
  if db.session_count = 0 then none
  else
    let sid := db.session_count
    let rows := sessionRows db.table sid
    match maxTimestamp rows with
    | none => none
    | some ts => some (sid, ts, rows.length)

/-- Model of `SessionManager.get_last_n_multipliers_from_session`: last `n`
multipliers of a session in chronological order. -/
def get_last_n_multipliers_from_session (db : Db) (sid n : ℕ) : List ℚ :=
  lastN ((sessionRows db.table sid).map MultRow.multiplier) n

/-! ## The session-continuity resolver -/

/-- Element-wise match of a persisted pattern against a window slice
under the absolute tolerance `0.01`:
`all(abs(a - b) < 0.01 for a, b in zip(db_pattern, page_slice))`. -/
def sliceMatches (pat slc : List ℚ) : Bool :=
  (pat.zip slc).all fun p => decide (|p.1 - p.2| < 1 / 100)

/-- The inner scan of `find_session_in_recent_multipliers`: try start
positions `i, i+1, ...` (`fuel` of them) and return the first position
whose length-`L` slice of `W` matches the pattern. -/
def searchFrom (pat W : List ℚ) (L : ℕ) : ℕ → ℕ → Option ℕ
  | _, 0 => none
  | i, fuel + 1 =>
    if sliceMatches pat ((W.drop i).take L) then some i
    else searchFrom pat W L (i + 1) fuel

/-- Scan of all start positions `range(len(W) - L + 1)`; an empty range
(pattern longer than the window) yields no match. -/
def findStart (pat W : List ℚ) (L : ℕ) : Option ℕ :=
  if L ≤ W.length then searchFrom pat W L 0 (W.length - L + 1) else none

/-- The pattern lengths tried, in order:
`range(max_pattern, min_consecutive - 1, -1)`, i.e. `max_pattern`
down to `min_consecutive` (empty when `max_pattern < min_consecutive`). -/
def patternLengths (maxP minC : ℕ) : List ℕ :=
  (List.range (maxP + 1 - minC)).map fun k => maxP - k

/-- The outer loop of the alignment search: for each pattern length in
order, fetch the last-`L` persisted pattern (skipping an empty one) and
scan the window; the first hit wins. -/
def tryLengths (hist W : List ℚ) : List ℕ → Option (ℕ × ℕ)
  | [] => none
  | L :: rest =>
    if (lastN hist L).isEmpty then tryLengths hist W rest
    else
      match findStart (lastN hist L) W L with
      | some i => some (L, i)
      | none => tryLengths hist W rest

/-- The pure alignment search of
`MultiStrategyCrasherBot.find_session_in_recent_multipliers` (lines
484-520): returns the chosen pattern length and start position. -/
def findAlign (hist W : List ℚ) (maxP minC : ℕ) : Option (ℕ × ℕ) :=
  tryLengths hist W (patternLengths maxP minC)

/-- Model of `MultiStrategyCrasherBot.find_session_in_recent_multipliers`:
decide whether the last persisted session continues into the observed
window `W`; on success return
`(session_id, match_end_pos, missing_rounds)`. -/
def find_session (db : Db) (W : List ℚ) (min_consecutive : ℕ) :
    Option (ℕ × ℕ × List ℚ) :=
  match get_last_session db with
  | none => none
  | some (sid, _, round_count) =>
    if round_count = 0 then some (sid, 0, W)
    else
      let hist := (sessionRows db.table sid).map MultRow.multiplier
      match findAlign hist W (min round_count 20) min_consecutive with
      | some (L, i) => some (sid, i + L, W.drop (i + L))
      | none => none

/-- Outcome of `MultiStrategyCrasherBot.recover_or_create_session`:
either a brand-new session was created (with the rounds imported into
it) or the last session was resumed (with the missing rounds
backfilled). -/
inductive RecoverResult where
  | created (imported : List ℚ)
  | resumed (sid : ℕ) (missing : List ℚ)
deriving Repr, DecidableEq

/-- Model of `MultiStrategyCrasherBot.recover_or_create_session` (lines
539-632): an empty observed window always creates a new session; a
resolver hit resumes the matched session with its missing rounds; a
miss creates a new session, importing the whole window when
`import_recent_on_new_session` is enabled (its config default is
`true`). -/
def recover_or_create_session (db : Db) (recent_page : List ℚ)
    (importAll : Bool) : RecoverResult :=
  if recent_page.isEmpty then RecoverResult.created []
  else
    match find_session db recent_page 5 with
    | some (sid, _, missing) => RecoverResult.resumed sid missing
    | none => RecoverResult.created (if importAll then recent_page else [])

/-- The backfill timestamps of `SessionManager.add_missing_rounds`
(lines 234-248): `seconds_per_round = total / n` when `n > 1` else `0`;
round `i` gets `start + seconds_per_round * (i + 1)` except the last,
which gets exactly `end_time`. -/
def round_timestamps (n : ℕ) (tStart tEnd : ℚ) : List ℚ :=
  let spr : ℚ := if 1 < n then (tEnd - tStart) / n else 0
  (List.range n).map fun i =>
    if i = n - 1 then tEnd else tStart + spr * ((i : ℚ) + 1)

/-- Model of `SessionManager.add_missing_rounds`: insert every missing
multiplier with its interpolated timestamp (the `INSERT` never hits a
uniqueness violation, the schema declaring none, so the
`IntegrityError` handler is never taken). -/
def add_missing_rounds (db : Db) (sid : ℕ) (ms : List ℚ)
    (tStart tEnd : ℚ) : Db :=
  if ms.isEmpty then db
  else
    { db with table := db.table ++
        ((ms.zip (round_timestamps ms.length tStart tEnd)).map fun p =>
          { multiplier := p.1, bettor_count := none, timestamp := p.2, session_id := sid }) }

/-! ## Concrete data used by witnesses and counterexamples -/

/-- A demonstration strategy: bet 100, cash out at 2x, trigger on a
single round below 2x, double after a loss. -/
def demoStrategy : StrategyState :=
  { name := "A", base_bet := 100, auto_cashout := 2, trigger_threshold := 2,
    trigger_count := 1, max_consecutive_losses := 20, bet_multiplier := 2,
    current_bet := 100, consecutive_losses := 0, total_profit := 0,
    waiting_for_result := false }

/-- Initial engine state with the demonstration strategy and a 50-unit
global loss cap. -/
def demoState : BotState :=
  { strategies := [demoStrategy], active_strategy := none, total_profit := 0,
    max_loss := 50, history := [] }

/-- An outcome event whose setup and placement both succeed. -/
def demoEvent (v : ℚ) : OutcomeEvent :=
  { value := v, setup_ok := [], place_ok := [] }

/-- Three rounds: a triggering round (1.0), a losing round (1.0) that
breaches the loss cap and re-triggers, then a 5.0 round that the engine
never processes. -/
def demoEvents : List OutcomeEvent :=
  [demoEvent 1, demoEvent 1, demoEvent 5]

/-- Engine state after the first demo event: the strategy acquired the
slot. -/
def demoS1 : BotState :=
  { strategies := [{ demoStrategy with waiting_for_result := true }],
    active_strategy := some 0, total_profit := 0, max_loss := 50,
    history := [1] }

/-- Engine state after the second demo event: the bet lost (breaching
the loss cap) and the strategy immediately re-acquired the slot with a
doubled bet. -/
def demoS2 : BotState :=
  { strategies := [{ demoStrategy with
      current_bet := 200
      consecutive_losses := 1
      total_profit := -100
      waiting_for_result := true }],
    active_strategy := some 0, total_profit := -100, max_loss := 50,
    history := [1, 1] }

/-- An engine state that already breached the global loss cap. -/
def haltState : BotState :=
  { demoState with total_profit := -100 }

/-- Strategy variant requiring a two-round trigger window. -/
def twoWindowStrategy : StrategyState :=
  { demoStrategy with trigger_count := 2 }

/-- A multiplier row of session 1. -/
def rowOf (m ts : ℚ) : MultRow :=
  { multiplier := m, bettor_count := none, timestamp := ts, session_id := 1 }

/-- Database of the continuity scenario: one session whose five rounds
are `1.2, 3.4, 1.1, 5.6, 2.0` with last timestamp `1000`. -/
def dbC6 : Db :=
  { table := [rowOf (12/10) 880, rowOf (34/10) 910, rowOf (11/10) 940,
      rowOf (56/10) 970, rowOf 2 1000],
    session_count := 1 }

/-- Observed window of the continuity scenario. -/
def wC6 : List ℚ := [34/10, 11/10, 56/10, 2, 78/10, 15/10]

/-- Persisted multipliers of the scenario session, chronological. -/
def histC6 : List ℚ := [12/10, 34/10, 11/10, 56/10, 2]

/-- An observed window containing the full five-round persisted tail of
the scenario session followed by one new round. -/
def wBig : List ℚ := [12/10, 34/10, 11/10, 56/10, 2, 9]

/-- Database whose last (open) session has zero rounds. -/
def dbEmptySession : Db :=
  { table := [], session_count := 1 }

/-- Database whose open session holds one round. -/
def dbOneRow : Db :=
  { table := [rowOf 2 100], session_count := 1 }

/-- A row used to demonstrate duplicate insertion. -/
def dupRow : MultRow :=
  { multiplier := 2, bettor_count := none, timestamp := 100, session_id := 1 }

/-! ## Invariant statements -/

/-- The geometric staking relation between a strategy's current bet and
its loss streak. -/
def stakeFormula (s : StrategyState) : Prop :=
  s.current_bet = s.base_bet * s.bet_multiplier ^ s.consecutive_losses

/-- Correspondence between the waiting flags of a strategy list and the
active-strategy slot: a strategy waits for a result exactly when it is
the slot holder. -/
def slotInvOn (l : List StrategyState) (act : Option ℕ) : Prop :=
  ∀ (j : ℕ) (s : StrategyState), l[j]? = some s →
    (s.waiting_for_result = true ↔ act = some j)

/-- Slot invariant of an engine state. -/
def slotInv (st : BotState) : Prop :=
  slotInvOn st.strategies st.active_strategy

/-- At most one strategy is waiting for a result. -/
def atMostOneWaiting (st : BotState) : Prop :=
  ∀ (j k : ℕ) (sj sk : StrategyState),
    st.strategies[j]? = some sj → st.strategies[k]? = some sk →
    sj.waiting_for_result = true → sk.waiting_for_result = true → j = k

/-- Between two consecutive engine states, whenever a strategy's
waiting flag changes, the change is an acquisition (the flag becomes
`true` and the strategy now holds the slot) or a release (the flag
becomes `false` and the strategy held the slot before). -/
def slotTransition (st st' : BotState) : Prop :=
  ∀ (j : ℕ) (s s' : StrategyState),
    st.strategies[j]? = some s → st'.strategies[j]? = some s' →
    s'.waiting_for_result ≠ s.waiting_for_result →
    (s'.waiting_for_result = true ∧ st'.active_strategy = some j) ∨
    (s'.waiting_for_result = false ∧ st.active_strategy = some j)

/-! ## General lemmas about the embedded operations -/

theorem length_get_recent (history : List ℚ) (n : ℕ) :
    (get_recent_multipliers history n).length = min n history.length := by
  simp only [get_recent_multipliers, lastN, List.length_drop]
  omega

/-- Claim C3: For every strategy with trigger window size `K`, the trigger
evaluation returns `true` iff the recent-window query returns exactly
`K` elements and every returned value is strictly below the strategy's
`trigger_threshold`; with fewer than `K` elements of session history the
trigger never fires. -/
theorem trigger_exact_window (history : List ℚ) (s : StrategyState) :
    (check_trigger history s = true ↔
      ((get_recent_multipliers history s.trigger_count).length = s.trigger_count ∧
        ∀ m ∈ get_recent_multipliers history s.trigger_count,
          m < s.trigger_threshold)) ∧
    (history.length < s.trigger_count → check_trigger history s = false) := by
  constructor
  · by_cases h :
      (get_recent_multipliers history s.trigger_count).length = s.trigger_count
    · simp [check_trigger, h, List.all_eq_true]
    · simp [check_trigger, h]
  · intro hlt
    have hlen := length_get_recent history s.trigger_count
    have h : (get_recent_multipliers history s.trigger_count).length ≠
        s.trigger_count := by omega
    simp [check_trigger, h]

/-- Witness for the trigger theorem: a two-round window strategy does
not fire on a one-round history, although the value is below the
threshold. -/
theorem trigger_exact_window_witness :
    check_trigger [(3 : ℚ)/2] twoWindowStrategy = false :=
  (trigger_exact_window [(3 : ℚ)/2] twoWindowStrategy).2 (by decide)

/-- Claim C4 counterexample: Appending two outcome events with identical
`(timestamp, value)` to the same session stores **two** rows, not one:
the schema has no uniqueness constraint, so the second insert is not a
no-op. -/
theorem duplicate_append_counterexample :
    countEvent (insertRow (insertRow [] dupRow) dupRow) 1 100 2 = 2 ∧
    countEvent (insertRow (insertRow [] dupRow) dupRow) 1 100 2 ≠ 1 := by
  decide

/-- Claim C4 amended: Appending two outcome events with identical
`(timestamp, value)` to the same session yields two stored rows; both
inserts complete without error (ingestion is not idempotent: the
`multipliers` schema declares no uniqueness constraint on
`(timestamp, value)`). -/
theorem duplicate_append_not_idempotent (table : List MultRow) (r : MultRow) :
    countEvent (insertRow (insertRow table r) r) r.session_id r.timestamp
        r.multiplier =
      countEvent table r.session_id r.timestamp r.multiplier + 2 := by
  simp [countEvent, insertRow, List.filter_append]

/-! ## Geometric staking -/

theorem calc_next_bet_eq (s : StrategyState) :
    s.calc_next_bet = s.base_bet * s.bet_multiplier ^ s.consecutive_losses := by
  unfold StrategyState.calc_next_bet
  split
  · next h => rw [h, pow_zero, mul_one]
  · rfl

theorem stakeFormula_handle (s : StrategyState) (m : ℚ) :
    stakeFormula (handle_result s m).1 := by
  unfold handle_result
  split
  · simp [stakeFormula, StrategyState.reset]
  · simpa [stakeFormula] using
      calc_next_bet_eq
        { s with total_profit := s.total_profit - s.current_bet
                 consecutive_losses := s.consecutive_losses + 1
                 waiting_for_result := false }

theorem stakeFormula_activate (s : StrategyState) :
    stakeFormula (activate_strategy s) := by
  simpa [stakeFormula, activate_strategy] using calc_next_bet_eq s

/-- A strategy appearing in a `set`-updated list is an old strategy or
the new value. -/
theorem mem_of_mem_set {α : Type} {l : List α} {i : ℕ} {a b : α}
    (h : b ∈ l.set i a) : b ∈ l ∨ b = a := by
  induction l generalizing i with
  | nil => simp at h
  | cons x xs ih =>
    cases i with
    | zero =>
      rcases List.mem_cons.1 h with h1 | h1
      · exact Or.inr h1
      · exact Or.inl (List.mem_cons_of_mem _ h1)
    | succ i =>
      rcases List.mem_cons.1 h with h1 | h1
      · exact Or.inl (h1 ▸ List.mem_cons_self x xs)
      · rcases ih h1 with h2 | h2
        · exact Or.inl (List.mem_cons_of_mem _ h2)
        · exact Or.inr h2

/-- A bet resolution always clears the strategy's waiting flag. -/
theorem handle_waiting_false (s : StrategyState) (m : ℚ) :
    (handle_result s m).1.waiting_for_result = false := by
  unfold handle_result
  split
  · simp [StrategyState.reset]
  · rfl

/-- Shape of a successful activation scan: the activated strategy is a
non-waiting member of the list whose trigger fired, transformed by
`activate_strategy`. -/
theorem scan_activate_some {history : List ℚ} :
    ∀ (l : List StrategyState) (su pl : List Bool) (i : ℕ) (s' : StrategyState),
      scan_activate history l su pl = some (i, s') →
      ∃ s0, l[i]? = some s0 ∧ s0.waiting_for_result = false ∧
        check_trigger history s0 = true ∧ s' = activate_strategy s0 := by
  intro l
  induction l with
  | nil => intro su pl i s' h; simp [scan_activate] at h
  | cons s rest ih =>
    intro su pl i s' h
    unfold scan_activate at h
    have fallthrough :
        (scan_activate history rest su.tail pl.tail).map
            (fun p => (p.1 + 1, p.2)) = some (i, s') →
        ∃ s0, (s :: rest)[i]? = some s0 ∧ s0.waiting_for_result = false ∧
          check_trigger history s0 = true ∧ s' = activate_strategy s0 := by
      intro hmap
      rcases Option.map_eq_some'.1 hmap with ⟨⟨j, t⟩, hrec, heq⟩
      have hj : j + 1 = i := congrArg Prod.fst heq
      have ht2 : t = s' := congrArg Prod.snd heq
      rcases ih su.tail pl.tail j t hrec with ⟨s0, hg, hw0, ht0, hs0⟩
      refine ⟨s0, ?_, hw0, ht0, by rw [← ht2, hs0]⟩
      rw [← hj, List.getElem?_cons_succ]
      exact hg
    by_cases hc : (!s.waiting_for_result && check_trigger history s) = true
    · rw [if_pos hc] at h
      rw [Bool.and_eq_true] at hc
      have hw : s.waiting_for_result = false := by simpa using hc.1
      have ht : check_trigger history s = true := hc.2
      by_cases hsu : su.headD true = true
      · rw [if_pos hsu] at h
        by_cases hpl : pl.headD true = true
        · rw [if_pos hpl] at h
          have hi : ((0, activate_strategy s) : ℕ × StrategyState) = (i, s') :=
            Option.some.inj h
          have hi1 : 0 = i := congrArg Prod.fst hi
          have hi2 : activate_strategy s = s' := congrArg Prod.snd hi
          refine ⟨s, ?_, hw, ht, hi2.symm⟩
          rw [← hi1]
          simp
        · rw [if_neg hpl] at h
          exact fallthrough h
      · rw [if_neg hsu] at h
        exact fallthrough h
    · rw [if_neg hc] at h
      exact fallthrough h

theorem mem_of_getElem? {α : Type} {l : List α} {i : ℕ} {a : α}
    (h : l[i]? = some a) : a ∈ l := by
  induction l generalizing i with
  | nil => simp at h
  | cons x xs ih =>
    cases i with
    | zero =>
      rw [List.getElem?_cons_zero] at h
      exact (Option.some.inj h) ▸ List.mem_cons_self x xs
    | succ i =>
      rw [List.getElem?_cons_succ] at h
      exact List.mem_cons_of_mem _ (ih h)

/-- Positional-index variant of `mem_of_getElem?`. -/
theorem mem_of_getElem_at {α : Type} (l : List α) (i : ℕ) {a : α}
    (h : l[i]? = some a) : a ∈ l :=
  mem_of_getElem? h

/-- Case analysis on the resolution phase: either it leaves the state
unchanged, or the active strategy was waiting and its bet is settled,
the slot being released. -/
theorem resolve_cases (st : BotState) (m : ℚ) :
    resolve_pending st m = st ∨
    ∃ i s, st.active_strategy = some i ∧ st.strategies[i]? = some s ∧
      s.waiting_for_result = true ∧
      resolve_pending st m =
        { st with strategies := st.strategies.set i (handle_result s m).1,
                  total_profit := st.total_profit + (handle_result s m).2,
                  active_strategy := none } := by
  cases hact : st.active_strategy with
  | none => left; simp [resolve_pending, hact]
  | some i =>
    cases hget : st.strategies[i]? with
    | none => left; simp [resolve_pending, hact, hget]
    | some s =>
      by_cases hw : s.waiting_for_result = true
      · refine Or.inr ⟨i, s, rfl, hget, hw, ?_⟩
        simp [resolve_pending, hact, hget, hw, handle_waiting_false]
      · left
        simp [resolve_pending, hact, hget, hw]

/-- Case analysis on the activation phase: either it leaves the state
unchanged, or the slot was free and the first successfully placed
strategy acquires it. -/
theorem try_cases (st : BotState) (ev : OutcomeEvent) :
    try_activate st ev = st ∨
    ∃ i s0, st.active_strategy = none ∧ st.strategies[i]? = some s0 ∧
      s0.waiting_for_result = false ∧ check_trigger st.history s0 = true ∧
      try_activate st ev =
        { st with strategies := st.strategies.set i (activate_strategy s0),
                  active_strategy := some i } := by
  cases hact : st.active_strategy with
  | some i => left; simp [try_activate, hact]
  | none =>
    cases hscan : scan_activate st.history st.strategies ev.setup_ok ev.place_ok with
    | none => left; simp [try_activate, hact, hscan]
    | some p =>
      rcases p with ⟨i, s'⟩
      rcases scan_activate_some st.strategies ev.setup_ok ev.place_ok i s' hscan with
        ⟨s0, hg, hw, ht, hs⟩
      refine Or.inr ⟨i, s0, rfl, hg, hw, ht, ?_⟩
      simp [try_activate, hact, hscan, hs]

theorem stake_preserved_resolve {st : BotState} {m : ℚ}
    (h : ∀ s ∈ st.strategies, stakeFormula s) :
    ∀ s ∈ (resolve_pending st m).strategies, stakeFormula s := by
  rcases resolve_cases st m with heq | ⟨i, s0, _, _, _, heq⟩ <;> rw [heq]
  · exact h
  · intro s hs
    rcases mem_of_mem_set hs with h1 | h1
    · exact h s h1
    · exact h1 ▸ stakeFormula_handle s0 m

theorem stake_preserved_activate {st : BotState} {ev : OutcomeEvent}
    (h : ∀ s ∈ st.strategies, stakeFormula s) :
    ∀ s ∈ (try_activate st ev).strategies, stakeFormula s := by
  rcases try_cases st ev with heq | ⟨i, s0, _, _, _, _, heq⟩ <;> rw [heq]
  · exact h
  · intro s hs
    rcases mem_of_mem_set hs with h1 | h1
    · exact h s h1
    · exact h1 ▸ stakeFormula_activate s0

theorem stake_preserved_step {st : BotState} {ev : OutcomeEvent}
    (h : ∀ s ∈ st.strategies, stakeFormula s) :
    ∀ s ∈ (step st ev).strategies, stakeFormula s := by
  unfold step
  exact stake_preserved_activate (stake_preserved_resolve h)

/-- Any property preserved by `step` holds along every trace. -/
theorem trace_inv (P : BotState → Prop)
    (hstep : ∀ st ev, P st → P (step st ev)) :
    ∀ (evs : List OutcomeEvent) (st : BotState), P st →
      ∀ a ∈ traceOf st evs, P a := by
  intro evs
  induction evs with
  | nil =>
    intro st hP a ha
    simp [traceOf, runEvents] at ha
    exact ha ▸ hP
  | cons ev rest ih =>
    intro st hP a ha
    by_cases hc : check_stop_conditions st = true
    · simp only [traceOf, runEvents, hc, if_true] at ha
      rcases List.mem_cons.1 ha with h1 | h1
      · exact h1 ▸ hP
      · exact ih (step st ev) (hstep st ev hP) a h1
    · simp only [traceOf, runEvents, hc, if_false] at ha
      simp at ha
      exact ha ▸ hP

/-- Evaluation of the three-event demo run: the first event triggers
the strategy, the second resolves it as a loss (breaching the global
loss cap) and re-activates it, and the stop check discards the third. -/
theorem runEvents_demo : runEvents demoState demoEvents = [demoS1, demoS2] := by
  norm_num [runEvents, step, resolve_pending, try_activate, scan_activate,
    check_trigger, get_recent_multipliers, lastN, activate_strategy,
    handle_result, StrategyState.reset, StrategyState.calc_next_bet,
    check_stop_conditions, demoState, demoStrategy, demoEvent, demoEvents,
    demoS1, demoS2]

/-- Claim C2: Geometric staking invariant: along every engine trace whose
initial strategies satisfy the staking relation, every strategy state
has `current_bet = base_bet * bet_multiplier ^ consecutive_losses`
(hence `current_bet = base_bet` when `consecutive_losses = 0`); and the
stake computed for `n` consecutive losses is exactly
`base_bet * bet_multiplier ^ n`. -/
theorem geometric_staking_invariant :
    (∀ s : StrategyState,
      s.calc_next_bet = s.base_bet * s.bet_multiplier ^ s.consecutive_losses) ∧
    (∀ st0 : BotState, (∀ s ∈ st0.strategies, stakeFormula s) →
      ∀ (evs : List OutcomeEvent) (st : BotState), st ∈ traceOf st0 evs →
        ∀ s ∈ st.strategies,
          s.current_bet = s.base_bet * s.bet_multiplier ^ s.consecutive_losses ∧
          (s.consecutive_losses = 0 → s.current_bet = s.base_bet)) := by
  refine ⟨calc_next_bet_eq, ?_⟩
  intro st0 h0 evs st hst s hs
  have hinv := trace_inv (fun st => ∀ s ∈ st.strategies, stakeFormula s)
    (fun _ ev h => stake_preserved_step h) evs st0 h0 st hst s hs
  refine ⟨hinv, ?_⟩
  intro hz
  rw [hinv, hz, pow_zero, mul_one]

/-- Witness: after a triggered bet and a losing round, the demo
strategy's bet is `100 * 2 ^ 1 = 200`, satisfying the staking
relation. -/
theorem geometric_staking_witness :
    (demoS2.strategies.getD 0 demoStrategy).current_bet =
      (demoS2.strategies.getD 0 demoStrategy).base_bet *
        (demoS2.strategies.getD 0 demoStrategy).bet_multiplier ^
          (demoS2.strategies.getD 0 demoStrategy).consecutive_losses :=
  (geometric_staking_invariant.2 demoState
    (by
      intro s hs
      simp [demoState] at hs
      rw [hs]
      simp [stakeFormula, demoStrategy])
    demoEvents demoS2
    (by
      rw [traceOf, runEvents_demo]
      exact mem_of_getElem_at _ 2 (by decide))
    (demoS2.strategies.getD 0 demoStrategy)
    (mem_of_getElem_at _ 0 (by decide))).1

/-! ## Exclusive slot -/

theorem slotInv_initial {st : BotState} (h0 : st.active_strategy = none)
    (hw : ∀ s ∈ st.strategies, s.waiting_for_result = false) : slotInv st := by
  intro j s hj
  rw [h0]
  constructor
  · intro hws
    rw [hw s (mem_of_getElem? hj)] at hws
    cases hws
  · intro hc
    cases hc

theorem atMostOne_of_slotInv {st : BotState} (h : slotInv st) :
    atMostOneWaiting st := by
  intro j k sj sk hj hk hwj hwk
  have h1 := (h j sj hj).1 hwj
  have h2 := (h k sk hk).1 hwk
  rw [h1] at h2
  exact Option.some.inj h2

theorem slotInv_resolve {st : BotState} {m : ℚ} (h : slotInv st) :
    slotInv (resolve_pending st m) := by
  rcases resolve_cases st m with heq | ⟨i, s, hact, hget, hw, heq⟩
  · rw [heq]; exact h
  · rw [heq]
    show slotInvOn (st.strategies.set i (handle_result s m).1) none
    intro j t hjt
    constructor
    · intro hwt
      exfalso
      by_cases hji : j = i
      · subst hji
        have hlen : j < st.strategies.length := (List.getElem?_eq_some.1 hget).1
        rw [List.getElem?_set_eq_of_lt _ hlen] at hjt
        have hft : t.waiting_for_result = false := by
          rw [← Option.some.inj hjt]
          exact handle_waiting_false s m
        rw [hft] at hwt
        cases hwt
      · rw [List.getElem?_set_ne (fun hh => hji hh.symm)] at hjt
        have hsome := (h j t hjt).1 hwt
        rw [hact] at hsome
        exact hji (Option.some.inj hsome).symm
    · intro hc
      cases hc

theorem slotInv_try {st : BotState} {ev : OutcomeEvent} (h : slotInv st) :
    slotInv (try_activate st ev) := by
  rcases try_cases st ev with heq | ⟨i, s0, hact, hget, hw0, ht0, heq⟩
  · rw [heq]; exact h
  · rw [heq]
    show slotInvOn (st.strategies.set i (activate_strategy s0)) (some i)
    intro j t hjt
    by_cases hji : j = i
    · subst hji
      have hlen : j < st.strategies.length := (List.getElem?_eq_some.1 hget).1
      rw [List.getElem?_set_eq_of_lt _ hlen] at hjt
      have ht : t = activate_strategy s0 := (Option.some.inj hjt).symm
      constructor
      · intro _; rfl
      · intro _; rw [ht]; rfl
    · rw [List.getElem?_set_ne (fun hh => hji hh.symm)] at hjt
      have hiff := h j t hjt
      rw [hact] at hiff
      constructor
      · intro hwt
        cases hiff.1 hwt
      · intro hc
        exact absurd (Option.some.inj hc).symm hji

theorem slotInv_step {st : BotState} {ev : OutcomeEvent} (h : slotInv st) :
    slotInv (step st ev) :=
  slotInv_try (slotInv_resolve h)

theorem resolve_length (st : BotState) (m : ℚ) :
    (resolve_pending st m).strategies.length = st.strategies.length := by
  rcases resolve_cases st m with heq | ⟨i, s, _, _, _, heq⟩
  · rw [heq]
  · rw [heq]
    exact List.length_set st.strategies i (handle_result s m).1

/-- The resolution phase changes a waiting flag only by releasing the
slot holder's. -/
theorem resolve_transition {st : BotState} {m : ℚ} :
    ∀ j s s', st.strategies[j]? = some s →
      (resolve_pending st m).strategies[j]? = some s' →
      s'.waiting_for_result ≠ s.waiting_for_result →
      s'.waiting_for_result = false ∧ st.active_strategy = some j := by
  intro j s s' hj hj' hne
  rcases resolve_cases st m with heq | ⟨i, t, hact, hget, hw, heq⟩
  · rw [heq] at hj'
    rw [hj] at hj'
    exact absurd (congrArg StrategyState.waiting_for_result
      (Option.some.inj hj')).symm hne
  · rw [heq] at hj'
    replace hj' : (st.strategies.set i (handle_result t m).1)[j]? = some s' := hj'
    by_cases hji : j = i
    · subst hji
      have hlen : j < st.strategies.length := (List.getElem?_eq_some.1 hget).1
      rw [List.getElem?_set_eq_of_lt _ hlen] at hj'
      refine ⟨?_, hact⟩
      rw [← Option.some.inj hj']
      exact handle_waiting_false t m
    · rw [List.getElem?_set_ne (fun hh => hji hh.symm)] at hj'
      rw [hj] at hj'
      exact absurd (congrArg StrategyState.waiting_for_result
        (Option.some.inj hj')).symm hne

/-- The activation phase changes a waiting flag only by an acquisition:
the flag becomes `true` and that strategy becomes the slot holder. -/
theorem try_transition {st : BotState} {ev : OutcomeEvent} :
    ∀ j s s', st.strategies[j]? = some s →
      (try_activate st ev).strategies[j]? = some s' →
      s'.waiting_for_result ≠ s.waiting_for_result →
      s'.waiting_for_result = true ∧
        (try_activate st ev).active_strategy = some j := by
  intro j s s' hj hj' hne
  rcases try_cases st ev with heq | ⟨i, s0, hact, hget, hw0, ht0, heq⟩
  · rw [heq] at hj'
    rw [hj] at hj'
    exact absurd (congrArg StrategyState.waiting_for_result
      (Option.some.inj hj')).symm hne
  · by_cases hji : j = i
    · subst hji
      rw [heq] at hj'
      replace hj' : (st.strategies.set j (activate_strategy s0))[j]? = some s' := hj'
      have hlen : j < st.strategies.length := (List.getElem?_eq_some.1 hget).1
      rw [List.getElem?_set_eq_of_lt _ hlen] at hj'
      constructor
      · rw [← Option.some.inj hj']; rfl
      · rw [heq]
    · rw [heq] at hj'
      replace hj' : (st.strategies.set i (activate_strategy s0))[j]? = some s' := hj'
      rw [List.getElem?_set_ne (fun hh => hji hh.symm)] at hj'
      rw [hj] at hj'
      exact absurd (congrArg StrategyState.waiting_for_result
        (Option.some.inj hj')).symm hne

/-- One engine step only changes waiting flags by acquisition or
release. -/
theorem step_slotTransition {st : BotState} {ev : OutcomeEvent} :
    slotTransition st (step st ev) := by
  intro j s s' hj hj' hne
  have hstep : step st ev =
      try_activate
        (resolve_pending { st with history := st.history ++ [ev.value] }
          ev.value) ev := rfl
  rw [hstep] at hj' ⊢
  have hj1 : ({ st with history := st.history ++ [ev.value] } :
      BotState).strategies[j]? = some s := hj
  cases hA : (resolve_pending { st with history := st.history ++ [ev.value] }
      ev.value).strategies[j]? with
  | none =>
    exfalso
    have hlen1 : j < ({ st with history := st.history ++ [ev.value] } :
        BotState).strategies.length := (List.getElem?_eq_some.1 hj1).1
    have hlen2 := resolve_length
      ({ st with history := st.history ++ [ev.value] } : BotState) ev.value
    rw [List.getElem?_eq_none_iff] at hA
    omega
  | some t =>
    by_cases htw : t.waiting_for_result = s.waiting_for_result
    · have h2 : s'.waiting_for_result ≠ t.waiting_for_result := by
        rw [htw]; exact hne
      exact Or.inl (try_transition j t s' hA hj' h2)
    · have hres := resolve_transition j s t hj1 hA htw
      by_cases h2 : s'.waiting_for_result = t.waiting_for_result
      · refine Or.inr ⟨?_, hres.2⟩
        rw [h2]; exact hres.1
      · exact Or.inl (try_transition j t s' hA hj' h2)

/-- Consecutive trace states are related by one engine step. -/
theorem trace_succ :
    ∀ (evs : List OutcomeEvent) (st : BotState) (k : ℕ) (a b : BotState),
      (traceOf st evs)[k]? = some a → (traceOf st evs)[k + 1]? = some b →
      ∃ ev, b = step a ev := by
  intro evs
  induction evs with
  | nil =>
    intro st k a b _ hb
    exfalso
    have : (traceOf st [])[k + 1]? = none := by
      simp [traceOf, runEvents]
    rw [this] at hb
    cases hb
  | cons ev rest ih =>
    intro st k a b ha hb
    by_cases hc : check_stop_conditions st = true
    · have hT : traceOf st (ev :: rest) = st :: traceOf (step st ev) rest := by
        simp [traceOf, runEvents, hc]
      rw [hT] at ha hb
      cases k with
      | zero =>
        have ha' : a = st := by
          rw [List.getElem?_cons_zero] at ha
          exact (Option.some.inj ha).symm
        have hb' : (traceOf (step st ev) rest)[0]? = some b := by
          rw [List.getElem?_cons_succ] at hb
          exact hb
        have hb'' : b = step st ev := by
          rw [traceOf, List.getElem?_cons_zero] at hb'
          exact (Option.some.inj hb').symm
        exact ⟨ev, by rw [hb'', ha']⟩
      | succ k =>
        rw [List.getElem?_cons_succ] at ha hb
        exact ih (step st ev) k a b ha hb
    · have hT : traceOf st (ev :: rest) = [st] := by
        simp [traceOf, runEvents, hc]
      rw [hT] at hb
      exfalso
      have : ([st] : List BotState)[k + 1]? = none := by
        rw [List.getElem?_cons_succ]
        simp
      rw [this] at hb
      cases hb

/-- Claim C1: Exclusive-slot invariant: starting from an initial state in
which no strategy waits for a result and the slot is free, every state
in the engine trace has at most one waiting strategy, and between
consecutive trace states a waiting flag changes only by acquisition (it
becomes `true` for the strategy that now holds the slot) or release (it
becomes `false` for the strategy that held the slot). -/
theorem exclusive_slot_invariant (st0 : BotState)
    (h0 : st0.active_strategy = none)
    (hw : ∀ s ∈ st0.strategies, s.waiting_for_result = false)
    (evs : List OutcomeEvent) :
    (∀ st ∈ traceOf st0 evs, atMostOneWaiting st) ∧
    (∀ (k : ℕ) (a b : BotState), (traceOf st0 evs)[k]? = some a →
      (traceOf st0 evs)[k + 1]? = some b → slotTransition a b) := by
  have hall : ∀ st ∈ traceOf st0 evs, slotInv st :=
    trace_inv slotInv (fun _ _ h => slotInv_step h) evs st0
      (slotInv_initial h0 hw)
  constructor
  · intro st hst
    exact atMostOne_of_slotInv (hall st hst)
  · intro k a b ha hb
    rcases trace_succ evs st0 k a b ha hb with ⟨ev, rfl⟩
    exact step_slotTransition

/-- Witness: the demo trace reaches a state with one waiting strategy,
and the invariant applies to it. -/
theorem exclusive_slot_witness : atMostOneWaiting demoS2 :=
  (exclusive_slot_invariant demoState rfl
    (by
      intro s hs
      simp [demoState] at hs
      rw [hs]
      rfl)
    demoEvents).1 demoS2
    (by
      rw [traceOf, runEvents_demo]
      exact mem_of_getElem_at _ 2 (by decide))

/-! ## Halt semantics -/

/-- Claim C5 counterexample: After the demo loss breaches the loss cap
while the strategy has re-acquired the slot, the loop breaks at the top
of the next iteration: the third event (a 5.0 winning round) is neither
appended to the log nor used to resolve the still-waiting strategy. -/
theorem halt_counterexample :
    (runEvents demoState demoEvents).length = 2 ∧
    ((runEvents demoState demoEvents).getD 1 demoState).history = [1, 1] ∧
    (((runEvents demoState demoEvents).getD 1 demoState).strategies.getD 0
        demoStrategy).waiting_for_result = true ∧
    check_stop_conditions ((runEvents demoState demoEvents).getD 1 demoState)
      = false := by
  rw [runEvents_demo]
  decide

/-- Claim C5 amended: Once the stop condition holds, the loop exits
immediately: a state failing the stop check processes no further event
(so no strategy ever acquires the slot later, no later outcome is
appended, and a pending strategy stays unresolved), and such a state is
always the last one of its trace. -/
theorem halt_stops_processing :
    (∀ (st : BotState) (evs : List OutcomeEvent),
      check_stop_conditions st = false → runEvents st evs = []) ∧
    (∀ (st0 : BotState) (evs : List OutcomeEvent) (k : ℕ) (a : BotState),
      (runEvents st0 evs)[k]? = some a → check_stop_conditions a = false →
      (runEvents st0 evs).length = k + 1) := by
  have h1 : ∀ (st : BotState) (evs : List OutcomeEvent),
      check_stop_conditions st = false → runEvents st evs = [] := by
    intro st evs hc
    cases evs with
    | nil => rfl
    | cons ev rest => simp [runEvents, hc]
  refine ⟨h1, ?_⟩
  intro st0 evs
  induction evs generalizing st0 with
  | nil =>
    intro k a ha _
    simp [runEvents] at ha
  | cons ev rest ih =>
    intro k a ha hc
    by_cases hs : check_stop_conditions st0 = true
    · have hrun : runEvents st0 (ev :: rest) =
          step st0 ev :: runEvents (step st0 ev) rest := by
        simp [runEvents, hs]
      rw [hrun] at ha ⊢
      cases k with
      | zero =>
        have haz : a = step st0 ev := by
          rw [List.getElem?_cons_zero] at ha
          exact (Option.some.inj ha).symm
        rw [List.length_cons, h1 (step st0 ev) rest (haz ▸ hc)]
        rfl
      | succ k =>
        rw [List.getElem?_cons_succ] at ha
        rw [List.length_cons, ih (step st0 ev) k a ha hc]
    · have hf : check_stop_conditions st0 = false := by
        revert hs
        cases check_stop_conditions st0 <;> simp
      rw [h1 st0 (ev :: rest) hf] at ha
      simp at ha

/-- Witness: a state beyond the loss cap processes no event at all. -/
theorem halt_stops_witness : runEvents haltState [demoEvent 5] = [] :=
  halt_stops_processing.1 haltState [demoEvent 5] (by decide)

/-! ## Backfill timestamps -/

/-- Claim C8: Backfill timestamp interpolation: for a non-empty missing
list of length `n`, every missing outcome is appended to the log; the
`i`-th backfilled timestamp (for `i < n - 1`) is
`tStart + (tEnd - tStart) * (i + 1) / n`, and the last one is exactly
`tEnd`. -/
theorem backfill_interpolation (ms : List ℚ) (sid : ℕ) (tStart tEnd : ℚ)
    (db : Db) (hne : ms ≠ []) :
    (add_missing_rounds db sid ms tStart tEnd).table =
      db.table ++ ((ms.zip (round_timestamps ms.length tStart tEnd)).map
        fun p => { multiplier := p.1, bettor_count := none, timestamp := p.2,
                   session_id := sid }) ∧
    (round_timestamps ms.length tStart tEnd).length = ms.length ∧
    (∀ i : ℕ, i + 1 < ms.length →
      (round_timestamps ms.length tStart tEnd)[i]? =
        some (tStart + (tEnd - tStart) * (i + 1) / ms.length)) ∧
    (round_timestamps ms.length tStart tEnd)[ms.length - 1]? = some tEnd := by
  have hlen : ms.length ≠ 0 := fun hz => hne (List.length_eq_zero.1 hz)
  refine ⟨?_, ?_, ?_, ?_⟩
  · rw [add_missing_rounds, if_neg (by simp [List.isEmpty_iff, hne])]
  · simp [round_timestamps]
  · intro i hi
    simp only [round_timestamps, List.getElem?_map, List.getElem?_range
      (show i < ms.length by omega), Option.map_some']
    rw [if_neg (show ¬ i = ms.length - 1 by omega),
      if_pos (show 1 < ms.length by omega)]
    congr 1
    ring
  · simp only [round_timestamps, List.getElem?_map, List.getElem?_range
      (show ms.length - 1 < ms.length by omega), Option.map_some']
    simp

/-- Witness for the backfill formula at the two-element missing list of
the continuity scenario. -/
theorem backfill_witness :
    (round_timestamps ([(78 : ℚ)/10, 15/10]).length 1000 1060).length =
      ([(78 : ℚ)/10, 15/10]).length ∧
    (round_timestamps ([(78 : ℚ)/10, 15/10]).length 1000
        1060)[([(78 : ℚ)/10, 15/10]).length - 1]? = some 1060 :=
  ⟨(backfill_interpolation [(78 : ℚ)/10, 15/10] 1 1000 1060 ⟨[], 1⟩
      (by decide)).2.1,
   (backfill_interpolation [(78 : ℚ)/10, 15/10] 1 1000 1060 ⟨[], 1⟩
      (by decide)).2.2.2⟩

/-! ## Alignment search -/

theorem searchFrom_some {pat W : List ℚ} {L : ℕ} :
    ∀ (fuel i j : ℕ), searchFrom pat W L i fuel = some j →
      i ≤ j ∧ j < i + fuel ∧
      sliceMatches pat ((W.drop j).take L) = true ∧
      ∀ k, i ≤ k → k < j → sliceMatches pat ((W.drop k).take L) = false := by
  intro fuel
  induction fuel with
  | zero =>
    intro i j h
    simp [searchFrom] at h
  | succ fuel ih =>
    intro i j h
    rw [searchFrom] at h
    by_cases hm : sliceMatches pat ((W.drop i).take L) = true
    · rw [if_pos hm] at h
      have hij : i = j := Option.some.inj h
      subst hij
      exact ⟨le_refl i, by omega, hm, fun k hk1 hk2 => absurd hk1 (by omega)⟩
    · rw [if_neg hm] at h
      rcases ih (i + 1) j h with ⟨h1, h2, h3, h4⟩
      refine ⟨by omega, by omega, h3, ?_⟩
      intro k hk1 hk2
      by_cases hki : k = i
      · subst hki
        exact Bool.eq_false_iff.2 hm
      · exact h4 k (by omega) hk2

theorem searchFrom_none {pat W : List ℚ} {L : ℕ} :
    ∀ (fuel i : ℕ), searchFrom pat W L i fuel = none →
      ∀ k, i ≤ k → k < i + fuel → sliceMatches pat ((W.drop k).take L) = false := by
  intro fuel
  induction fuel with
  | zero =>
    intro i _ k hk1 hk2
    omega
  | succ fuel ih =>
    intro i h k hk1 hk2
    rw [searchFrom] at h
    by_cases hm : sliceMatches pat ((W.drop i).take L) = true
    · rw [if_pos hm] at h
      cases h
    · rw [if_neg hm] at h
      by_cases hki : k = i
      · subst hki
        exact Bool.eq_false_iff.2 hm
      · exact ih (i + 1) h k (by omega) (by omega)

theorem findStart_some {pat W : List ℚ} {L i : ℕ}
    (h : findStart pat W L = some i) :
    i + L ≤ W.length ∧ sliceMatches pat ((W.drop i).take L) = true ∧
    ∀ k, k < i → sliceMatches pat ((W.drop k).take L) = false := by
  rw [findStart] at h
  by_cases hL : L ≤ W.length
  · rw [if_pos hL] at h
    rcases searchFrom_some _ 0 i h with ⟨_, h2, h3, h4⟩
    exact ⟨by omega, h3, fun k hk => h4 k (by omega) hk⟩
  · rw [if_neg hL] at h
    cases h

theorem findStart_none {pat W : List ℚ} {L : ℕ}
    (h : findStart pat W L = none) :
    ∀ k, k + L ≤ W.length → sliceMatches pat ((W.drop k).take L) = false := by
  intro k hk
  rw [findStart] at h
  by_cases hL : L ≤ W.length
  · rw [if_pos hL] at h
    exact searchFrom_none _ 0 h k (by omega) (by omega)
  · exact absurd (by omega : L ≤ W.length) hL

theorem tryLengths_some {hist W : List ℚ} :
    ∀ (Ls : List ℕ) (L i : ℕ), tryLengths hist W Ls = some (L, i) →
      ∃ pre post, Ls = pre ++ L :: post ∧
        (∀ L' ∈ pre, (lastN hist L').isEmpty = true ∨
          findStart (lastN hist L') W L' = none) ∧
        (lastN hist L).isEmpty = false ∧
        findStart (lastN hist L) W L = some i := by
  intro Ls
  induction Ls with
  | nil =>
    intro L i h
    simp [tryLengths] at h
  | cons L0 rest ih =>
    intro L i h
    rw [tryLengths] at h
    by_cases he : (lastN hist L0).isEmpty = true
    · rw [if_pos he] at h
      rcases ih L i h with ⟨pre, post, h1, h2, h3, h4⟩
      refine ⟨L0 :: pre, post, by rw [h1]; rfl, ?_, h3, h4⟩
      intro L' hL'
      rcases List.mem_cons.1 hL' with hL0 | hmem
      · exact Or.inl (hL0 ▸ he)
      · exact h2 L' hmem
    · rw [if_neg he] at h
      cases hf : findStart (lastN hist L0) W L0 with
      | some i0 =>
        rw [hf] at h
        have hinj : ((L0, i0) : ℕ × ℕ) = (L, i) := Option.some.inj h
        have hLL : L0 = L := congrArg Prod.fst hinj
        have hii : i0 = i := congrArg Prod.snd hinj
        subst hLL
        subst hii
        refine ⟨[], rest, rfl, ?_, Bool.eq_false_iff.2 he, hf⟩
        intro L' hL'
        cases hL'
      | none =>
        rw [hf] at h
        rcases ih L i h with ⟨pre, post, h1, h2, h3, h4⟩
        refine ⟨L0 :: pre, post, by rw [h1]; rfl, ?_, h3, h4⟩
        intro L' hL'
        rcases List.mem_cons.1 hL' with hL0 | hmem
        · exact Or.inr (hL0 ▸ hf)
        · exact h2 L' hmem

theorem patternLengths_getElem? {maxP minC k : ℕ} (hk : k < maxP + 1 - minC) :
    (patternLengths maxP minC)[k]? = some (maxP - k) := by
  rw [patternLengths, List.getElem?_map, List.getElem?_range hk]
  rfl

/-- Positioning facts for a decomposition of the tried pattern lengths:
the chosen length is in the configured range, and every longer length
in range was tried before it. -/
theorem patternLengths_decomp {maxP minC : ℕ} {pre post : List ℕ} {L : ℕ}
    (h : patternLengths maxP minC = pre ++ L :: post) :
    (minC ≤ L ∧ L ≤ maxP) ∧ ∀ L', L < L' → L' ≤ maxP → L' ∈ pre := by
  have hlen : (patternLengths maxP minC).length = maxP + 1 - minC := by
    simp [patternLengths]
  have hlt : pre.length < maxP + 1 - minC := by
    have h2 : (patternLengths maxP minC).length =
        pre.length + (post.length + 1) := by
      rw [h]
      simp [List.length_append]
    omega
  have hL : (patternLengths maxP minC)[pre.length]? = some L := by
    rw [h, List.getElem?_append_right (le_refl pre.length)]
    simp
  have hLval : L = maxP - pre.length := by
    rw [patternLengths_getElem? hlt] at hL
    exact (Option.some.inj hL).symm
  constructor
  · omega
  · intro L' hL1 hL2
    have hk : maxP - L' < pre.length := by omega
    have hv : (patternLengths maxP minC)[maxP - L']? = some (maxP - (maxP - L')) :=
      patternLengths_getElem? (by omega)
    have hval : maxP - (maxP - L') = L' := by omega
    rw [h, List.getElem?_append, if_pos hk, hval] at hv
    exact mem_of_getElem? hv

/-- Claim C7: Alignment search order and tie-break: a successful search
returns a length within the configured range and a start position whose
slice matches; no longer in-range length matches anywhere in the
window, and no earlier start position matches at the chosen length; and
through `find_session` the missing outcomes are exactly the elements of
the window strictly after the matched slice's end. -/
theorem alignment_search_order (hist W : List ℚ) (maxP minC L i : ℕ)
    (h : findAlign hist W maxP minC = some (L, i)) :
    (minC ≤ L ∧ L ≤ maxP) ∧
    i + L ≤ W.length ∧
    sliceMatches (lastN hist L) ((W.drop i).take L) = true ∧
    (∀ L', L < L' → L' ≤ maxP → (lastN hist L').isEmpty = false →
      ∀ j, j + L' ≤ W.length →
        sliceMatches (lastN hist L') ((W.drop j).take L') = false) ∧
    (∀ j, j < i → sliceMatches (lastN hist L) ((W.drop j).take L) = false) ∧
    (∀ (db : Db) (sid : ℕ) (ts : ℚ) (rc : ℕ),
      get_last_session db = some (sid, ts, rc) → ¬ rc = 0 →
      (sessionRows db.table sid).map MultRow.multiplier = hist →
      min rc 20 = maxP → minC = 5 →
      find_session db W 5 = some (sid, i + L, W.drop (i + L))) := by
  rcases tryLengths_some _ L i h with ⟨pre, post, hdec, hpre, hne, hfs⟩
  rcases patternLengths_decomp hdec with ⟨⟨hm1, hm2⟩, hmem⟩
  rcases findStart_some hfs with ⟨hlen, hmatch, hearlier⟩
  refine ⟨⟨hm1, hm2⟩, hlen, hmatch, ?_, hearlier, ?_⟩
  · intro L' h1 h2 h3 j hj
    rcases hpre L' (hmem L' h1 h2) with hcase | hcase
    · rw [h3] at hcase
      cases hcase
    · exact findStart_none hcase j hj
  · intro db sid ts rc hg hrc hhist hmax hmin
    simp only [find_session, hg]
    rw [if_neg hrc, hhist, hmax, ← hmin, h]

/-- Witness: on a window containing the whole five-round persisted tail
plus one new round, the search at the default minimum length 5 matches
at length 5, position 0, and `find_session` reports one missing
round. -/
theorem alignment_search_witness :
    sliceMatches (lastN histC6 5) ((wBig.drop 0).take 5) = true ∧
    find_session dbC6 wBig 5 = some (1, 0 + 5, wBig.drop (0 + 5)) := by
  have h := alignment_search_order histC6 wBig 5 5 5 0
    (by
      norm_num [findAlign, tryLengths, patternLengths, findStart, searchFrom,
        sliceMatches, lastN, histC6, wBig, List.range_succ, abs_lt])
  exact ⟨h.2.2.1,
    h.2.2.2.2.2 dbC6 1 1000 5
      (by
        norm_num [get_last_session, sessionRows, maxTimestamp, dbC6, rowOf])
      (by omega)
      (by norm_num [sessionRows, dbC6, rowOf, histC6])
      (by decide)
      rfl⟩

/-! ## Continuity scenario -/

/-- Claim C6 counterexample: With persisted tail `1.2, 3.4, 1.1, 5.6, 2.0`
(round_count 5) and window `3.4, 1.1, 5.6, 2.0, 7.8, 1.5`, the resolver
at the default minimum match length 5 finds **no** alignment (the
overlap is only 4 rounds long, and length 4 is never tried), so a new
session is created and the whole window imported — the length-4
alignment of the claim is never selected. -/
theorem continuity_scenario_counterexample :
    find_session dbC6 wC6 5 = none ∧
    recover_or_create_session dbC6 wC6 true = RecoverResult.created wC6 := by
  constructor
  · norm_num [find_session, get_last_session, sessionRows, maxTimestamp, dbC6,
      rowOf, findAlign, tryLengths, patternLengths, findStart, searchFrom,
      sliceMatches, lastN, wC6, List.range_succ, abs_lt]
  · norm_num [recover_or_create_session, find_session, get_last_session,
      sessionRows, maxTimestamp, dbC6, rowOf, findAlign, tryLengths,
      patternLengths, findStart, searchFrom, sliceMatches, lastN, wC6,
      List.range_succ, abs_lt]

/-- Claim C6 amended: In the scenario, the session is found with last
timestamp `T0 = 1000` and 5 rounds; with minimum match length lowered
to 4 the resolver would select length 4 at position 0 with missing
outcomes `7.8, 1.5`; and a two-element backfill over
`(T0, T0 + 60)` is stamped `T0 + 30` and `T0 + 60`. -/
theorem continuity_scenario_amended :
    get_last_session dbC6 = some (1, 1000, 5) ∧
    (sessionRows dbC6.table 1).map MultRow.multiplier = histC6 ∧
    findAlign histC6 wC6 (min 5 20) 4 = some (4, 0) ∧
    find_session dbC6 wC6 4 = some (1, 4, [78/10, 15/10]) ∧
    (∀ t0 : ℚ, round_timestamps 2 t0 (t0 + 60) = [t0 + 30, t0 + 60]) := by
  refine ⟨?_, ?_, ?_, ?_, ?_⟩
  · norm_num [get_last_session, sessionRows, maxTimestamp, dbC6, rowOf]
  · norm_num [sessionRows, dbC6, rowOf, histC6]
  · norm_num [findAlign, tryLengths, patternLengths, findStart, searchFrom,
      sliceMatches, lastN, histC6, wC6, List.range_succ, abs_lt]
  · norm_num [find_session, get_last_session, sessionRows, maxTimestamp, dbC6,
      rowOf, findAlign, tryLengths, patternLengths, findStart, searchFrom,
      sliceMatches, lastN, wC6, histC6, List.range_succ, abs_lt]
  · intro t0
    norm_num [round_timestamps, List.range_succ]

/-! ## Session recovery with an empty observed window -/

/-- Claim C9 counterexample: With an open one-round session in the
database and an empty observed window, the resolver creates a brand-new
session instead of resuming the open one. -/
theorem empty_window_counterexample :
    get_last_session dbOneRow = some (1, 100, 1) ∧
    recover_or_create_session dbOneRow [] true = RecoverResult.created [] ∧
    recover_or_create_session dbOneRow [] true ≠ RecoverResult.resumed 1 [] := by
  refine ⟨?_, rfl, by decide⟩
  norm_num [get_last_session, sessionRows, maxTimestamp, dbOneRow, rowOf]

/-- Claim C9 amended: When the observed window is empty, a new session
is always created (with nothing imported), regardless of the database
contents. -/
theorem empty_window_always_creates (db : Db) (imp : Bool) :
    recover_or_create_session db [] imp = RecoverResult.created [] := rfl

/-! ## Zero-round open session -/

/-- Claim C10: A last session with zero rounds makes `get_last_session`
return `none` (its `MAX(timestamp)` is `NULL`), so the resolver's
dedicated `round_count == 0` resume branch is unreachable: on a
non-empty window the engine creates a brand-new session and imports the
window into it instead of resuming the empty session. -/
theorem zero_round_session_behavior :
    get_last_session dbEmptySession = none ∧
    find_session dbEmptySession [2, 3] 5 = none ∧
    recover_or_create_session dbEmptySession [2, 3] true =
      RecoverResult.created [2, 3] := by
  refine ⟨rfl, rfl, rfl⟩

/-- The dead branch in general: whenever the last session has no rows,
`get_last_session` yields `none`, so `find_session` can never take its
`round_count == 0` path. -/
theorem zero_round_get_last_session_none (db : Db)
    (h : sessionRows db.table db.session_count = []) :
    get_last_session db = none := by
  rw [get_last_session]
  by_cases hz : db.session_count = 0
  · rw [if_pos hz]
  · rw [if_neg hz]
    simp only [h, maxTimestamp]

end Crasher
